import Mathlib

/-!
Verification of the mcp-brag ingestion-and-search pipeline.

This file gives a shallow embedding, in Lean 4, of the parts of the
mcp-brag repository that the specification's claims talk about:

* `server/api/search.py` — `_get_extended_search_result_indices`,
  `_cut_line_into_chunks`, `search`, `most_relevant_sources`;
* `server/read/text_reader.py` — `TextReader.read_iter`, `_split_text_chunk`;
* `embedder/read_write/bulk_queue.py` — `BulkQueue.put_many`;
* `embedder/embed.py` / `server/thread_managers/embedder_manager.py` —
  `Embedder.iter` and the embedder worker loop;
* `embedder/store/sqlite/sql.py` — `search_embeddings`;
* `embedder/store/sqlite/sqlite.py` / `server/main.py` — `list_sources`
  and the storage worker `run_continuous_storage`;
* `server/api/internal.py` — `_search_files`, `_list_data_sources_files`.

Python strings are embedded as `List Char`, Python ints as `ℕ`/`ℤ`, and
Python floats as `ℚ` (the claims under study only depend on ordering and
on exact field arithmetic, never on rounding).  Loops are embedded as
structural recursions; where the source loop's termination is not
syntactic, the recursion carries an explicit fuel argument together with
a wrapper that supplies fuel sufficient for every terminating run of the
source loop, so that all definitions compute by `decide`.
-/

namespace McpBrag

/-! ## Python string primitives -/

/-- Python `str.isspace` on the ASCII whitespace characters that can occur
in the texts handled by the chunkers (`str.strip()` / `str.isspace()`). -/
def pyIsSpace (c : Char) : Bool :=
  c = ' ' || c = '\t' || c = '\n' || c = '\r' || c = '\x0b' || c = '\x0c'

/-- Python `s.strip()`: remove leading and trailing whitespace. -/
def pyStrip (s : List Char) : List Char :=
  ((s.dropWhile pyIsSpace).reverse.dropWhile pyIsSpace).reverse

/-- Python `s.rstrip("\n\r")`: remove trailing newline characters. -/
def pyRstripNewlines (s : List Char) : List Char :=
  (s.reverse.dropWhile (fun c => c = '\n' || c = '\r')).reverse

/-- Python slicing `s[a:b]` for `0 ≤ a ≤ b`. -/
def sliceL (s : List Char) (a b : ℕ) : List Char :=
  (s.drop a).take (b - a)

/-- Python `s.rfind(" ", a, b)`: the largest index `i` with
`a ≤ i < min b (len s)` and `s[i] = ' '`; `none` models the return value `-1`. -/
def pyRfindSpace (s : List Char) (a b : ℕ) : Option ℕ :=
  ((List.range (min b s.length)).filter (fun i => a ≤ i && s.get? i == some ' ')).getLast?

/-! ## `_get_extended_search_result_indices` (`server/api/search.py`)

The function receives scored search hits (each with metadata
`start_index`, `end_index` and a float `_distance`), extends each hit by
`SEARCH_CONTEXT_EXTENSION_CHARACTERS`, sorts the extended triples with
Python's tuple (lexicographic) order and merges them with a running
`(current_start, current_end, current_distance)` accumulator.  The triple
components are embedded in `ℚ` because the source freely mixes the int
indices and the float distance inside `max(current_end, end,
min(current_distance, distance))`. -/

/-- A scored search hit: `_meta["start_index"]`, `_meta["end_index"]`,
`_distance` of a `TextInputWithDistance`. -/
structure SearchHit where
  start_index : ℤ
  end_index : ℤ
  distance : ℚ
deriving DecidableEq, Repr

/-- A window triple `(start, end, distance)` as manipulated by the merge. -/
structure Window where
  ws : ℚ
  we : ℚ
  wd : ℚ
deriving DecidableEq, Repr

/-- Default of the constant `SEARCH_CONTEXT_EXTENSION_CHARACTERS`. -/
def SEARCH_CONTEXT_EXTENSION_CHARACTERS : ℤ := 1000

/-- One extended candidate window:
`(max(0, start_index - ctx), end_index + ctx, distance)`. -/
def extendHit (ctx : ℤ) (h : SearchHit) : Window :=
  ⟨((max 0 (h.start_index - ctx) : ℤ) : ℚ), ((h.end_index + ctx : ℤ) : ℚ), h.distance⟩

/-- Python tuple comparison on the window triples, as used by
`extended_indices.sort()`. -/
def windowLe (a b : Window) : Prop :=
  a.ws < b.ws ∨ (a.ws = b.ws ∧ (a.we < b.we ∨ (a.we = b.we ∧ a.wd ≤ b.wd)))

instance : DecidableRel windowLe := fun a b => by
  unfold windowLe; infer_instance

/-- The merge loop of `_get_extended_search_result_indices`, verbatim:
on overlap `current_end = max(current_end, end, min(current_distance,
distance))` (the distance of the incoming window is folded into the END
coordinate, and `current_distance` is left unchanged); on a gap the pair
`(current_start, current_end)` is appended together with the INCOMING
window's distance; the final window is appended with `current_distance`. -/
def mergeWindowsGo : Window → List Window → List Window
  | cur, [] => [cur]
  | cur, w :: rest =>
    if w.ws ≤ cur.we then
      mergeWindowsGo ⟨cur.ws, max (max cur.we w.we) (min cur.wd w.wd), cur.wd⟩ rest
    else
      ⟨cur.ws, cur.we, w.wd⟩ :: mergeWindowsGo w rest

/-- Embedding of `_get_extended_search_result_indices`: extend every hit,
sort the triples (Python's sort is stable, and the lexicographic order is
antisymmetric, so the sorted list is unique and `insertionSort` computes
it), then merge. -/
def getExtendedSearchResultIndices (ctx : ℤ) (hits : List SearchHit) : List Window :=
  match List.insertionSort windowLe (hits.map (extendHit ctx)) with
  | [] => []
  | w :: rest => mergeWindowsGo w rest

/-! ## `BulkQueue.put_many` (`embedder/read_write/bulk_queue.py`)

`put_many(items, _retry_count)` does nothing on an empty list, then enters
`with self._lock:` — `self._lock` is a non-reentrant `threading.Lock`, so
acquiring it while the same thread already holds it blocks forever.  Inside
the lock it places the items one by one with `put_nowait`; on the first
`Full` it keeps the remaining items and, when `_retry_count <
BULK_QUEUE_FULL_RETRY_COUNT`, sleeps and calls `self.put_many(remaining,
_retry_count + 1)` recursively — while still holding the lock — otherwise
it raises `Full`.  The embedding makes the lock state explicit
(`lockHeld`); a blocked acquisition is the outcome `deadlock`. -/

/-- Default of the constant `BULK_QUEUE_FULL_RETRY_COUNT`. -/
def BULK_QUEUE_FULL_RETRY_COUNT : ℕ := 100

/-- Result of the placement `for`-loop inside `put_many`: either every item
was placed, or `put_nowait` raised `Full` with the given items remaining. -/
inductive PlaceOutcome (α : Type) where
  | done (queue : List α)
  | fullAt (queue : List α) (remaining : List α)
deriving DecidableEq, Repr

/-- The `for i, item in enumerate(remaining_items)` loop: place items while
the queue has room (`cap` is the queue's `maxsize`); on overflow keep
`remaining_items[i:]` (the failing item included). -/
def placeItems (cap : ℕ) (queue : List α) : List α → PlaceOutcome α
  | [] => .done queue
  | x :: rest =>
    if queue.length < cap then placeItems cap (queue ++ [x]) rest
    else .fullAt queue (x :: rest)

/-- Observable outcome of a `put_many` call. -/
inductive PutManyOutcome (α : Type) where
  | ok (queue : List α)
  | raisedFull (queue : List α)
  | deadlock (queue : List α)
deriving DecidableEq, Repr

/-- Embedding of `BulkQueue.put_many`.  `fuel` only bounds the retry
recursion so the definition is structural; the wrapper `putMany` supplies
more fuel than any run can consume.  The recursive call in the source
happens under `with self._lock:` with the lock already held by this very
call, which the embedding records by passing `lockHeld := true`; re-entering
`put_many` then blocks forever on the lock acquisition (`deadlock`). -/
def putManyRec (cap : ℕ) : ℕ → List α → List α → ℕ → Bool → PutManyOutcome α
  | _, queue, [], _, _ => .ok queue
  | fuel, queue, x :: rest, retryCount, lockHeld =>
    if lockHeld then .deadlock queue
    else
      match placeItems cap queue (x :: rest) with
      | .done queue₂ => .ok queue₂
      | .fullAt queue₂ remaining =>
        if retryCount < BULK_QUEUE_FULL_RETRY_COUNT then
          -- time.sleep(min(BULK_QUEUE_FULL_SLEEP_TIME * 2 ** retryCount, 1.0))
          match fuel with
          | 0 => .deadlock queue₂
          | fuel₂ + 1 => putManyRec cap fuel₂ queue₂ remaining (retryCount + 1) true
        else .raisedFull queue₂

/-- A top-level `put_many(items)` call: `_retry_count = 0` and the lock is
free. -/
def putMany (cap : ℕ) (queue : List α) (items : List α) : PutManyOutcome α :=
  putManyRec cap (BULK_QUEUE_FULL_RETRY_COUNT + 1) queue items 0 false

/-! ## `Embedder.iter` and the embedder worker loop
(`embedder/embed.py`, `server/thread_managers/embedder_manager.py`)

`iter` reads up to `batch_size` items (`get_many` raises `ValueError` when
`batch_size ≤ 0`), returns on an empty batch, otherwise vectorizes; on a
vectorizer error it logs and RE-RAISES.  `EmbedderThreadManager.run` loops
`embedder.iter()` while the read queue is non-empty with no `try`/`except`,
so a raised error propagates and the worker thread exits; when the queue
stays empty the idle timeout fires and the loop breaks. -/

/-- Read and write queues of the embedder transport. -/
structure EmbWorkerState (α : Type) where
  readQ : List α
  writeQ : List α
deriving DecidableEq, Repr

/-- Embedding of one `Embedder.iter` call with an abstract vectorizer
(`none` models `vectorize` raising).  `Except.error` is a raised exception:
the batch has already been consumed from the read queue and is dropped
(nothing is written). -/
def embedderIter (vec : List α → Option (List α)) (batchSize : ℕ)
    (st : EmbWorkerState α) : Except (EmbWorkerState α) (EmbWorkerState α) :=
  if batchSize = 0 then .error st
  else
    let batch := st.readQ.take batchSize
    let st₂ : EmbWorkerState α := ⟨st.readQ.drop batchSize, st.writeQ⟩
    if batch.isEmpty then .ok st₂
    else
      match vec batch with
      | some vb => .ok ⟨st₂.readQ, st₂.writeQ ++ vb⟩
      | none => .error st₂

/-- How an `EmbedderThreadManager.run` invocation ends. -/
inductive RunOutcome (α : Type) where
  | idleExit (st : EmbWorkerState α)
  | crashed (st : EmbWorkerState α)
deriving DecidableEq, Repr

/-- The `while not self._should_stop` loop of `EmbedderThreadManager.run`:
while the read queue is non-empty, run `embedder.iter()`; an exception
from `iter` is not caught and terminates `run` (`crashed`); with the queue
empty the idle timeout eventually breaks the loop (`idleExit`).  The fuel
is only a structural bound; `embedderRun` supplies enough for any run. -/
def embedderRunGo (vec : List α → Option (List α)) (batchSize : ℕ) :
    ℕ → EmbWorkerState α → RunOutcome α
  | 0, st => .idleExit st
  | fuel + 1, st =>
    if st.readQ.isEmpty then .idleExit st
    else
      match embedderIter vec batchSize st with
      | .ok st₂ => embedderRunGo vec batchSize fuel st₂
      | .error st₂ => .crashed st₂

/-- The embedder worker loop started on the current queue contents: each
non-empty iteration consumes at least one item, so `readQ.length + 1` fuel
covers every run. -/
def embedderRun (vec : List α → Option (List α)) (batchSize : ℕ)
    (st : EmbWorkerState α) : RunOutcome α :=
  embedderRunGo vec batchSize (st.readQ.length + 1) st

/-! ## The sqlite store (`embedder/store/sqlite/sql.py`, `sqlite.py`)
and the storage worker (`server/main.py`) -/

/-- The reserved pseudo-source (`embedder/store/store.py`). -/
def USER_QUERY_SOURCE : String := "user-query"

/-- A row of the `collections` table. -/
structure CollRow where
  source_path : String
  source_type : String
  state : String
deriving DecidableEq, Repr

/-- A row of the `embeddings` virtual table (the vector itself is kept
abstract: the claims only look at `id`, `collection` and `text`). -/
structure EmbRow where
  id : String
  collection : String
  text : String
deriving DecidableEq, Repr

/-- The two tables of `embeddings.db`. -/
structure DbState where
  collections : List CollRow
  embeddings : List EmbRow
deriving DecidableEq, Repr

/-- `get_collection_sources`: `SELECT DISTINCT source_path FROM collections`. -/
def getCollectionSources (db : DbState) : List String :=
  (db.collections.map (·.source_path)).dedup

/-- `SqliteDataSourceMap.list_sources`: returns `get_collection_sources`
verbatim, with no filtering. -/
def listSources (db : DbState) : List String :=
  getCollectionSources db

/-- `SqliteDataSourceMap.exists`. -/
def existsSource (db : DbState) (source : String) : Bool :=
  source ∈ getCollectionSources db

/-- `create_collection` through `SqliteDataSourceMap.create`: insert a new
`collections` row (the caller has already checked non-existence). -/
def createCollection (db : DbState) (path ty st : String) : DbState :=
  { db with collections := db.collections ++ [⟨path, ty, st⟩] }

/-- A `TextInput` as the storage worker sees it: `_meta["source"]`,
`_meta["source_type"]`, `_meta["id"]` and the text. -/
structure StoredInput where
  source : String
  source_type : String
  id : String
  text : String
deriving DecidableEq, Repr

/-- `SqliteEmbeddingStore.add_batch`: each input becomes an `embeddings`
row whose `collection` is the store's name. -/
def addBatch (db : DbState) (source : String) (inputs : List StoredInput) : DbState :=
  { db with embeddings := db.embeddings ++ inputs.map (fun i => ⟨i.id, source, i.text⟩) }

/-- The per-group body of `run_continuous_storage`: create the data source
when it does not exist (with the first input's `source_type`), then append
the batch.  The ingestion-progress bookkeeping and the completed-state
update only touch progress state and the `state` column of existing rows,
never `collections` membership, and are not needed by the claims. -/
def storeGroup (db : DbState) (source : String) (inputs : List StoredInput) : DbState :=
  let db₂ :=
    if existsSource db source then db
    else createCollection db source ((inputs.headD ⟨source, "", "", ""⟩).source_type) "processing"
  addBatch db₂ source inputs

/-- One pass of the `run_continuous_storage` loop body over a batch read
from the write queue: group the valid inputs by `_meta["source"]`
(`defaultdict` keyed in first-appearance order) and store each group. -/
def runContinuousStorageStep (db : DbState) (inputs : List StoredInput) : DbState :=
  ((inputs.map (·.source)).dedup).foldl
    (fun d s => storeGroup d s (inputs.filter (fun i => i.source == s))) db

/-- Keys of `get_sources_stats` (`get_collections_details` returns one
stats entry per `collections` row, keyed by `source_path`). -/
def getSourcesStatsKeys (db : DbState) : List String :=
  (db.collections.map (·.source_path)).dedup

/-- The sources listed by `_list_data_sources_files`
(`server/api/internal.py`): iterate `list_sources()` and skip the
user-query source and sources missing from the stats dict. -/
def listDataSourcesFiles (db : DbState) : List String :=
  (listSources db).filter
    (fun s => !(s == USER_QUERY_SOURCE || !(getSourcesStatsKeys db).contains s))

/-! ### `search_embeddings` (`embedder/store/sqlite/sql.py`)

The SQL query is a KNN `MATCH` over the `embeddings` vec0 table —
`k` nearest rows by distance, in ascending order — restricted by
`collection <> 'user-query'` and, when a non-empty source list is given,
`collection IN (...)`.  The embedding abstracts the vector geometry into
a distance function on rows and models `MATCH ... LIMIT k` as
sort-by-distance then take `k` of the rows passing the `WHERE` filters. -/

/-- The `WHERE` filter of `search_embeddings`: the `collection <>
'user-query'` conjunct is unconditional; the `IN` clause is added only
when `sources` is neither `None` nor empty. -/
def searchEmbeddingsFilter (sources : Option (List String)) (r : EmbRow) : Bool :=
  (r.collection != USER_QUERY_SOURCE) &&
    (match sources with
     | none => true
     | some ss => if ss.isEmpty then true else ss.contains r.collection)

/-- Embedding of `search_embeddings conn query k sources`: `dist` gives
each row's distance to the query vector. -/
def searchEmbeddings (table : List EmbRow) (dist : EmbRow → ℚ) (k : ℕ)
    (sources : Option (List String)) : List EmbRow :=
  ((List.insertionSort (fun a b => dist a ≤ dist b) table).filter
    (searchEmbeddingsFilter sources)).take k

/-- A search result row as `SqliteDataSourceMap.search` returns it. -/
structure TextInputWithDistanceL where
  text : String
  collection : String
  distance : ℚ
deriving DecidableEq, Repr

/-- `SqliteDataSourceMap.search`: call `search_embeddings` and convert each
row — no additional filtering happens in this caller. -/
def sqliteDataSourceMapSearch (table : List EmbRow) (dist : EmbRow → ℚ) (k : ℕ)
    (sources : Option (List String)) : List TextInputWithDistanceL :=
  (searchEmbeddings table dist k sources).map (fun r => ⟨r.text, r.collection, dist r⟩)

/-! ## `search` result collection, slicing and sorting
(`server/api/search.py` `search`, `server/api/internal.py` `_search_files`) -/

/-- Default of the constant `SEARCH_RESULT_LIMIT`. -/
def SEARCH_RESULT_LIMIT : ℕ := 5

/-- A `SearchResult` dataclass instance. -/
structure SearchResultL where
  text : String
  source : String
  start_index : ℕ
  end_index : ℕ
  distance : ℚ
deriving DecidableEq, Repr

/-- Comparison used by `sorted(results, key=lambda x: x.distance)`. -/
def srLe (a b : SearchResultL) : Prop :=
  a.distance ≤ b.distance

instance : DecidableRel srLe := fun a b => by
  unfold srLe; infer_instance

instance : IsTotal SearchResultL srLe :=
  ⟨fun a b => le_total a.distance b.distance⟩

instance : IsTrans SearchResultL srLe :=
  ⟨fun _ _ _ hab hbc => le_trans hab hbc⟩

/-- The tail of `search(query, ..., limit, offset)`: extend `results` with
the per-query-id result lists in order, slice `results[offset : offset +
limit]`, and return them sorted by ascending distance (Python's stable
sort on a key; the resulting order of `insertionSort` agrees with it). -/
def searchReturn (perQuery : List (List SearchResultL)) (limit offset : ℕ) :
    List SearchResultL :=
  List.insertionSort srLe ((perQuery.flatten.drop offset).take limit)

/-- `_search_files`: call `search(query, ..., SEARCH_RESULT_LIMIT, offset)`
and then slice the returned list AGAIN with
`[offset : offset + SEARCH_RESULT_LIMIT]`. -/
def searchFiles (perQuery : List (List SearchResultL)) (offset : ℕ) :
    List SearchResultL :=
  let searchResults := searchReturn perQuery SEARCH_RESULT_LIMIT offset
  (searchResults.drop offset).take SEARCH_RESULT_LIMIT

/-! ## `most_relevant_sources` merging (`server/api/search.py`) -/

/-- A `RelevantCollection`.  `count` is an int in the source; it is
embedded in `ℚ` because the merge divides by sums of counts (Python `/` is
true division). -/
structure RelevantCollection where
  collection : String
  min_distance : ℚ
  avg_distance : ℚ
  count : ℚ
deriving DecidableEq, Repr

/-- The `else` branch of the merge loop, in source order: `avg_distance`
is recomputed first from the OLD counts, then `count` is summed, then
`min_distance` takes the minimum. -/
def combineRelevant (old new : RelevantCollection) : RelevantCollection :=
  { collection := old.collection
    avg_distance :=
      (old.avg_distance * old.count + new.avg_distance * new.count) /
        (old.count + new.count)
    count := old.count + new.count
    min_distance := min old.min_distance new.min_distance }

/-- Lookup in the `relevant_sources_grouped_by_query` dict, embedded as an
association list in insertion order. -/
def lookupColl (c : String) (acc : List RelevantCollection) :
    Option RelevantCollection :=
  acc.find? (fun o => o.collection == c)

/-- One iteration of the merge loop for one incoming `relevant_source`:
insert it when its collection is new, otherwise combine it into the
existing entry. -/
def mergeRelevantStep (acc : List RelevantCollection) (rc : RelevantCollection) :
    List RelevantCollection :=
  match lookupColl rc.collection acc with
  | none => acc ++ [rc]
  | some _ => acc.map (fun o => if o.collection == rc.collection then combineRelevant o rc else o)

/-- The whole merge over the `get_relevant_sources` outputs of all query
ids, flattened in arrival order. -/
def mergeRelevantArrivals (arrivals : List RelevantCollection) :
    List RelevantCollection :=
  arrivals.foldl mergeRelevantStep []

/-! ## The chunkers
(`server/read/text_reader.py` `_split_text_chunk` / `TextReader.read_iter`,
`server/api/search.py` `_cut_line_into_chunks`)

Both long-unit splitting loops are textually identical: take
`chunk_end = min(current_pos + limit, len)`, and when not at the end of
the text look for the LAST `" "` (a space — `rfind(" ", ...)`, not
arbitrary whitespace) inside the window, using it as break point when it
lies strictly after `current_pos`; strip the window's text and emit it
when non-empty; then skip whitespace.  The shared loop is `chunkLoop`. -/

/-- A `TextChunk` dataclass instance (`server/read/reader.py`). -/
structure TextChunkL where
  start_index : ℕ
  end_index : ℕ
  text : List Char
deriving DecidableEq, Repr

/-- The break-point choice shared by both splitting loops:
`chunk_end = min(current_pos + limit, len)`; if that is not the end of the
text, `last_space = text.rfind(" ", current_pos, chunk_end)` and
`chunk_end = last_space` when `last_space > current_pos`. -/
def chunkEndChoice (limit : ℕ) (s : List Char) (pos : ℕ) : ℕ :=
  let ce := min (pos + limit) s.length
  if ce < s.length then
    match pyRfindSpace s pos ce with
    | some ls => if pos < ls then ls else ce
    | none => ce
  else ce

/-- The trailing `while current_pos < line_length and
line[current_pos].isspace(): current_pos += 1` loop: advance to the first
non-whitespace index at or after `pos`. -/
def skipSpaces (s : List Char) (pos : ℕ) : ℕ :=
  pos + ((s.drop pos).takeWhile pyIsSpace).length

/-- The shared `while current_pos < length` splitting loop.  One iteration
strictly increases `current_pos` whenever `limit ≥ 1`, so the wrappers'
fuel `length + 1` is sufficient; the fuel-out branch is unreachable from
them (the source loop itself does not terminate when the limit is `0`). -/
def chunkLoop (limit : ℕ) (s : List Char) (base : ℕ) : ℕ → ℕ → List TextChunkL
  | _, 0 => []
  | pos, fuel + 1 =>
    if pos < s.length then
      let ce := chunkEndChoice limit s pos
      let txt := pyStrip (sliceL s pos ce)
      let rest := chunkLoop limit s base (skipSpaces s ce) fuel
      if txt = [] then rest else ⟨base + pos, base + ce, txt⟩ :: rest
    else []

/-- Embedding of `_cut_line_into_chunks(line, base_index)`
(`server/api/search.py`); `limit` is `SEARCH_CHUNK_CHARACTER_LIMIT.value`.
A line that fits is emitted whole but STRIPPED; longer lines go through
the splitting loop. -/
def cutLineIntoChunks (limit : ℕ) (line : List Char) (base : ℕ := 0) :
    List TextChunkL :=
  if pyStrip line = [] then []
  else if line.length ≤ limit then
    let sanitized := pyStrip line
    if sanitized = [] then [] else [⟨base, base + line.length, sanitized⟩]
  else chunkLoop limit line base 0 (line.length + 1)

/-- Embedding of `_split_text_chunk(chunk_size_max, text_chunk)`
(`server/read/text_reader.py`).  A chunk that fits is yielded UNCHANGED
(not stripped); longer chunks go through the same splitting loop, with
indices offset by the original chunk's `start_index`. -/
def splitTextChunk (limit : ℕ) (tc : TextChunkL) : List TextChunkL :=
  if tc.text.length ≤ limit then [tc]
  else chunkLoop limit tc.text tc.start_index 0 (tc.text.length + 1)

/-- The `for line in file` iteration: split after every `'\n'`, keeping
the newline with its line (Python text mode translates `'\r\n'` to `'\n'`
in both `read()` and iteration, so both see the same canonical text). -/
def splitLinesKeepEnds : List Char → List (List Char)
  | [] => []
  | c :: rest =>
    match splitLinesKeepEnds rest with
    | [] => [[c]]
    | l :: ls => if c = '\n' then [c] :: l :: ls else (c :: l) :: ls

/-- The body of `TextReader.read_iter`: for each line with non-whitespace
content, strip trailing newlines, build the line's `TextChunk` at the
running character index, and split it; always advance the index by the
full line length. -/
def readIterGo (limit : ℕ) : ℕ → List (List Char) → List TextChunkL
  | _, [] => []
  | ci, line :: rest =>
    (if pyStrip line = [] then []
     else splitTextChunk limit ⟨ci, ci + (pyRstripNewlines line).length, pyRstripNewlines line⟩)
      ++ readIterGo limit (ci + line.length) rest

/-- Embedding of `TextReader.read_iter` over the file's canonical text
(the string returned by `TextReader.read`). -/
def readIter (limit : ℕ) (fileText : List Char) : List TextChunkL :=
  readIterGo limit 0 (splitLinesKeepEnds fileText)

/-! ## Supporting lemmas -/

theorem placeItems_ok_or_deadlock (cap : ℕ) (queue : List α) (items : List α)
    (retryCount : ℕ) (hretry : retryCount < BULK_QUEUE_FULL_RETRY_COUNT) (fuel : ℕ) :
    (∃ q₂, putManyRec cap (fuel + 1) queue items retryCount false = .ok q₂) ∨
    (∃ q₂, putManyRec cap (fuel + 1) queue items retryCount false = .deadlock q₂) := by
  cases items with
  | nil => exact .inl ⟨queue, rfl⟩
  | cons x rest =>
    rw [putManyRec]
    simp only [Bool.false_eq_true, if_false]
    cases h : placeItems cap queue (x :: rest) with
    | done q₂ => exact .inl ⟨q₂, rfl⟩
    | fullAt q₂ remaining =>
      cases remaining with
      | nil => exact .inl ⟨q₂, by simp [hretry, putManyRec]⟩
      | cons y ys => exact .inr ⟨q₂, by simp [hretry, putManyRec]⟩

/-! ## Claim theorems -/

/-- C1 (code bug): the window merge of `_get_extended_search_result_indices`
does not carry the minimum distance of the members.  For the two hits
`(0, 10, distance 5)` and `(5, 20, distance 3)` with the default context
extension 1000, the extended windows overlap and the merged window is
reported with distance 5, while the minimum member distance is
`min 5 3 = 3 < 5` (the source folds `min(current_distance, distance)` into
the END coordinate and never updates `current_distance`).  The second
conjunct shows that the union of the windows is not preserved either:
with context 0, the windows `(0, 1)` and `(1, 2)` with distances 100 and
50 merge to `(0, 50)` because the distance is folded into the end. -/
theorem c1_merge_bug_eval :
    getExtendedSearchResultIndices SEARCH_CONTEXT_EXTENSION_CHARACTERS
        [⟨0, 10, 5⟩, ⟨5, 20, 3⟩] = [⟨0, 1020, 5⟩] ∧
      min (5 : ℚ) 3 < 5 ∧
      getExtendedSearchResultIndices 0 [⟨0, 1, 100⟩, ⟨1, 2, 50⟩] = [⟨0, 50, 100⟩] := by
  refine ⟨by decide, by norm_num, by decide⟩

/-- C3 (code bug): `put_many` on a queue that lacks capacity never raises
`Full`.  The first conjunct evaluates the failing input: a queue of
capacity 1, initially empty, receiving `put_many([0, 1])` places `0`, hits
`Full` on `1`, and then deadlocks — the retry path re-enters
`with self._lock:` while the same thread already holds the non-reentrant
lock.  The second conjunct proves that in general every top-level
`put_many` call either succeeds or deadlocks; the `raise Full` after
exhausted retries is unreachable because reaching it would require a
retry, and the first retry already blocks forever. -/
theorem c3_put_many_deadlock :
    putMany 1 ([] : List ℕ) [0, 1] = .deadlock [0] ∧
      ∀ (α : Type) (cap : ℕ) (queue items : List α),
        (∃ q₂, putMany cap queue items = .ok q₂) ∨
        (∃ q₂, putMany cap queue items = .deadlock q₂) := by
  refine ⟨by decide, ?_⟩
  intro α cap queue items
  exact placeItems_ok_or_deadlock cap queue items 0 (by decide) BULK_QUEUE_FULL_RETRY_COUNT

/-- C4 counterexample: with a vectorizer that raises on the batch `[7]`,
an embedder worker started on read queue `[7, 8]` (batch size 1) crashes:
the run loop ends in `crashed` — the worker thread exits — and the second
batch `[8]` is left unconsumed on the read queue, contradicting the claim
that the loop continues and subsequent batches are still consumed. -/
theorem c4_counterexample :
    embedderRun (fun b => if b.contains 7 then none else some b) 1
        ⟨[7, 8], ([] : List ℕ)⟩ = .crashed ⟨[8], []⟩ ∧
      ([8] : List ℕ).isEmpty = false := by
  exact ⟨by decide, by decide⟩

/-- C4 (amended): when the vectorizer raises on the first batch, the
embedder worker drops that whole batch — it is consumed from the read
queue and nothing is written to the write queue — logs the error, and the
exception propagates out of `Embedder.iter` through
`EmbedderThreadManager.run`, which has no handler: the worker thread
exits (`crashed`), leaving the remaining queued items unprocessed until a
later enqueue resurrects the thread through the queue's wake hook. -/
theorem c4_amended (α : Type) (vec : List α → Option (List α)) (batchSize : ℕ)
    (st : EmbWorkerState α) (hne : st.readQ.isEmpty = false) (hbs : 0 < batchSize)
    (hfail : vec (st.readQ.take batchSize) = none) :
    embedderRun vec batchSize st = .crashed ⟨st.readQ.drop batchSize, st.writeQ⟩ := by
  obtain ⟨readQ, writeQ⟩ := st
  cases readQ with
  | nil => simp at hne
  | cons y ys =>
    cases batchSize with
    | zero => exact absurd hbs (by simp)
    | succ b =>
      rw [embedderRun, embedderRunGo]
      simp only [List.isEmpty_cons, if_false]
      rw [embedderIter]
      simp only [Nat.succ_ne_zero, if_false, List.take_cons, List.isEmpty_cons]
      simp only [List.take_succ_cons, List.isEmpty_cons, Bool.false_eq_true, if_false] at hfail ⊢
      rw [hfail]

/-- C4 witness: the amended theorem applied at a concrete input — a
vectorizer that always raises, read queue `[1, 2]`, batch size 1. -/
theorem c4_witness :
    embedderRun (fun _ => (none : Option (List ℕ))) 1 ⟨[1, 2], []⟩ =
      .crashed ⟨[2], []⟩ :=
  c4_amended ℕ (fun _ => none) 1 ⟨[1, 2], []⟩ (by decide) (by decide) rfl

theorem listSources_mono (db : DbState) (source s : String) (g : List StoredInput)
    (hs : s ∈ listSources db) : s ∈ listSources (storeGroup db source g) := by
  unfold storeGroup
  cases h : existsSource db source with
  | true =>
    rw [if_pos rfl]
    simpa [addBatch, listSources, getCollectionSources] using hs
  | false =>
    rw [if_neg Bool.false_ne_true]
    simp only [addBatch, createCollection, listSources, getCollectionSources,
      List.mem_dedup, List.map_append, List.mem_append] at hs ⊢
    exact Or.inl hs

theorem listSources_storeGroup_self (db : DbState) (source : String)
    (g : List StoredInput) : source ∈ listSources (storeGroup db source g) := by
  unfold storeGroup
  cases h : existsSource db source with
  | true =>
    rw [if_pos rfl]
    have hmem : source ∈ getCollectionSources db := by
      simpa [existsSource] using h
    simpa [addBatch, listSources, getCollectionSources] using hmem
  | false =>
    rw [if_neg Bool.false_ne_true]
    simp [addBatch, createCollection, listSources, getCollectionSources, List.mem_dedup]

theorem listSources_foldl_mono (sources : List String) (f : String → List StoredInput)
    (db : DbState) (s : String) (hs : s ∈ listSources db) :
    s ∈ listSources (sources.foldl (fun d src => storeGroup d src (f src)) db) := by
  induction sources generalizing db with
  | nil => exact hs
  | cons t ts ih => exact ih _ (listSources_mono db t s (f t) hs)

/-- C2 counterexample: starting from a store that holds one ordinary
source, storing a batch that contains a user-query text input (exactly
what the storage worker does with a search query's embeddings) CREATES a
`collections` row for `"user-query"`, and `list_sources()` then returns
it: the claim that `list_sources()` never includes `"user-query"` after a
search is false. -/
theorem c2_counterexample :
    USER_QUERY_SOURCE ∈ listSources
      (runContinuousStorageStep
        ⟨[⟨"fileA", "LOCAL_TEXT_FILE", "completed"⟩], []⟩
        [⟨"user-query", "user_query", "qid1", "what is alpha"⟩]) := by
  decide

/-- C2 (amended): once a search's query embeddings reach the storage
worker, `run_continuous_storage` creates the `"user-query"` collection
(if absent) and `list_sources()` DOES include `"user-query"`; the
exclusion from listings is enforced one layer up, in the `data_sources`
listing handler `_list_data_sources_files`, which always filters the
user-query source out of the files it reports. -/
theorem c2_amended :
    (∀ (db : DbState) (inputs : List StoredInput),
        USER_QUERY_SOURCE ∈ inputs.map StoredInput.source →
        USER_QUERY_SOURCE ∈ listSources (runContinuousStorageStep db inputs)) ∧
      ∀ db : DbState, (listDataSourcesFiles db).contains USER_QUERY_SOURCE = false := by
  constructor
  · intro db inputs hmem
    unfold runContinuousStorageStep
    have hdedup : USER_QUERY_SOURCE ∈ (inputs.map (·.source)).dedup :=
      List.mem_dedup.mpr hmem
    clear hmem
    generalize (inputs.map (·.source)).dedup = srcs at hdedup ⊢
    induction srcs generalizing db with
    | nil => cases hdedup
    | cons t ts ih =>
      rcases List.mem_cons.mp hdedup with heq | hmem₂
      · subst heq
        exact listSources_foldl_mono ts _ _ _
          (listSources_storeGroup_self db USER_QUERY_SOURCE _)
      · exact ih _ hmem₂
  · intro db
    cases hc : (listDataSourcesFiles db).contains USER_QUERY_SOURCE with
    | false => rfl
    | true =>
      have hmem : USER_QUERY_SOURCE ∈ listDataSourcesFiles db := List.elem_iff.mp hc
      have := (List.mem_filter.mp hmem).2
      simp at this

/-- C2 witness: the amended theorem applied at a concrete input — an
empty store receiving one user-query input, and the listing handler on
the resulting store. -/
theorem c2_witness :
    USER_QUERY_SOURCE ∈ listSources
        (runContinuousStorageStep ⟨[], []⟩ [⟨"user-query", "user_query", "q1", "hi"⟩]) ∧
      (listDataSourcesFiles
        (runContinuousStorageStep ⟨[], []⟩ [⟨"user-query", "user_query", "q1", "hi"⟩])).contains
          USER_QUERY_SOURCE = false :=
  ⟨c2_amended.1 ⟨[], []⟩ [⟨"user-query", "user_query", "q1", "hi"⟩] (by decide),
   c2_amended.2 _⟩

/-- C5: `search_embeddings` excludes the `"user-query"` collection inside
the index-level query itself — for EVERY table, distance function, `k`
and source restriction, no returned row's collection is the user-query
source — and `SqliteDataSourceMap.search` is a plain row-to-result
conversion of that query's output, so its results carry the same
exclusion without any caller-side filtering. -/
theorem c5_search_excludes_user_query (table : List EmbRow) (dist : EmbRow → ℚ)
    (k : ℕ) (sources : Option (List String)) :
    (∀ r ∈ searchEmbeddings table dist k sources,
        (r.collection == USER_QUERY_SOURCE) = false) ∧
      ∀ x ∈ sqliteDataSourceMapSearch table dist k sources,
        (x.collection == USER_QUERY_SOURCE) = false := by
  have hrows : ∀ r ∈ searchEmbeddings table dist k sources,
      (r.collection == USER_QUERY_SOURCE) = false := by
    intro r hr
    have hr₂ := List.mem_of_mem_take hr
    have hfilt := (List.mem_filter.mp hr₂).2
    unfold searchEmbeddingsFilter at hfilt
    have hne := (Bool.and_eq_true _ _ |>.mp hfilt).1
    simpa [bne] using hne
  refine ⟨hrows, ?_⟩
  intro x hx
  unfold sqliteDataSourceMapSearch at hx
  obtain ⟨r, hr, hconv⟩ := List.mem_map.mp hx
  have := hrows r hr
  rw [← hconv]
  exact this

/-- C5 witness: the theorem applied at a concrete index containing a
user-query row and an ordinary row; the ordinary row is returned and its
collection is not the user-query source. -/
theorem c5_witness :
    (⟨"i2", "doc.txt", "hello"⟩ : EmbRow) ∈
        searchEmbeddings [⟨"i1", "user-query", "q"⟩, ⟨"i2", "doc.txt", "hello"⟩]
          (fun r => if r.id = "i1" then 0 else 1) 5 none ∧
      (("doc.txt" : String) == USER_QUERY_SOURCE) = false :=
  ⟨by decide,
   (c5_search_excludes_user_query [⟨"i1", "user-query", "q"⟩, ⟨"i2", "doc.txt", "hello"⟩]
      (fun r => if r.id = "i1" then 0 else 1) 5 none).1
     ⟨"i2", "doc.txt", "hello"⟩ (by decide)⟩

/-- C6: the tail of `search` collects the per-query-id result lists
(`results.extend(...)` over all query ids — the flatten), returns exactly
the slice `offset .. offset + limit` of the collected results (the output
is a permutation of that slice), and the returned list is sorted in
non-decreasing distance. -/
theorem c6_search_slice_sorted (perQuery : List (List SearchResultL))
    (limit offset : ℕ) :
    List.Perm (searchReturn perQuery limit offset)
        ((perQuery.flatten.drop offset).take limit) ∧
      List.Sorted srLe (searchReturn perQuery limit offset) :=
  ⟨List.perm_insertionSort srLe _, List.sorted_insertionSort srLe _⟩

/-- C10: `_search_files` applies the pagination offset twice.  `search`
already returns at most `SEARCH_RESULT_LIMIT` results (the requested
page), and the handler slices that returned list again with
`[offset : offset + SEARCH_RESULT_LIMIT]`; hence for `offset ≥
SEARCH_RESULT_LIMIT` the handler returns no results at all, and for
`0 < offset < SEARCH_RESULT_LIMIT` it drops the first `offset` results of
the page `search` returned. -/
theorem c10_offset_applied_twice (perQuery : List (List SearchResultL)) (offset : ℕ) :
    (searchReturn perQuery SEARCH_RESULT_LIMIT offset).length ≤ SEARCH_RESULT_LIMIT ∧
      (SEARCH_RESULT_LIMIT ≤ offset → searchFiles perQuery offset = []) ∧
      (0 < offset → offset < SEARCH_RESULT_LIMIT →
        searchFiles perQuery offset =
          (searchReturn perQuery SEARCH_RESULT_LIMIT offset).drop offset) := by
  have hlen : (searchReturn perQuery SEARCH_RESULT_LIMIT offset).length ≤
      SEARCH_RESULT_LIMIT := by
    unfold searchReturn
    rw [(List.perm_insertionSort srLe _).length_eq]
    exact List.length_take_le _ _
  refine ⟨hlen, ?_, ?_⟩
  · intro hoff
    simp only [searchFiles]
    rw [List.drop_eq_nil_of_le (le_trans hlen hoff)]
    rfl
  · intro _ hoff
    simp only [searchFiles]
    apply List.take_of_length_le
    rw [List.length_drop]
    omega

/-- C10 witness: the theorem applied at a concrete per-query result list,
at offsets 7 (beyond the page size — empty result) and 2 (a strict page
prefix is dropped). -/
theorem c10_witness :
    searchFiles [[⟨"t", "s", 0, 1, 1⟩]] 7 = [] ∧
      searchFiles [[⟨"t", "s", 0, 1, 1⟩]] 2 =
        (searchReturn [[⟨"t", "s", 0, 1, 1⟩]] SEARCH_RESULT_LIMIT 2).drop 2 :=
  ⟨(c10_offset_applied_twice [[⟨"t", "s", 0, 1, 1⟩]] 7).2.1 (by decide),
   (c10_offset_applied_twice [[⟨"t", "s", 0, 1, 1⟩]] 2).2.2 (by decide) (by decide)⟩

/-! ### Lemmas for the `most_relevant_sources` merge -/

theorem combineRelevant_collection (old other : RelevantCollection) :
    (combineRelevant old other).collection = old.collection := rfl

theorem lookupColl_map_update (c : String) (rc : RelevantCollection)
    (acc : List RelevantCollection) :
    lookupColl c
        (acc.map (fun o => if o.collection == rc.collection then combineRelevant o rc else o)) =
      (lookupColl c acc).map
        (fun o => if o.collection == rc.collection then combineRelevant o rc else o) := by
  induction acc with
  | nil => rfl
  | cons o os ih =>
    have hcoll :
        (if o.collection == rc.collection then combineRelevant o rc else o).collection =
          o.collection := by
      by_cases h : (o.collection == rc.collection) = true <;>
        simp [h, combineRelevant_collection]
    unfold lookupColl at ih ⊢
    rw [List.map_cons]
    simp only [List.find?]
    rw [hcoll]
    cases h : (o.collection == c) with
    | true => rfl
    | false => exact ih

theorem mergeRelevantStep_none (acc : List RelevantCollection)
    (rc : RelevantCollection) (h : lookupColl rc.collection acc = none) :
    mergeRelevantStep acc rc = acc ++ [rc] := by
  unfold mergeRelevantStep
  rw [h]

theorem mergeRelevantStep_some (acc : List RelevantCollection)
    (rc old : RelevantCollection) (h : lookupColl rc.collection acc = some old) :
    mergeRelevantStep acc rc =
      acc.map (fun o => if o.collection == rc.collection then combineRelevant o rc else o) := by
  unfold mergeRelevantStep
  rw [h]

theorem lookupColl_step (c : String) (acc : List RelevantCollection)
    (rc : RelevantCollection) :
    lookupColl c (mergeRelevantStep acc rc) =
      if rc.collection = c then
        some ((lookupColl c acc).elim rc (fun old => combineRelevant old rc))
      else lookupColl c acc := by
  cases hfound : lookupColl rc.collection acc with
  | none =>
    rw [mergeRelevantStep_none acc rc hfound]
    by_cases hc : rc.collection = c
    · subst hc
      rw [if_pos rfl, hfound]
      unfold lookupColl at hfound ⊢
      rw [List.find?_append, hfound, Option.none_or]
      simp [List.find?, Option.elim]
    · rw [if_neg hc]
      unfold lookupColl
      rw [List.find?_append]
      have hnone : [rc].find? (fun o => o.collection == c) = none := by
        simp [List.find?, beq_eq_false_iff_ne.mpr hc]
      rw [hnone, Option.or_none]
  | some old =>
    rw [mergeRelevantStep_some acc rc old hfound, lookupColl_map_update]
    by_cases hc : rc.collection = c
    · subst hc
      rw [if_pos rfl, hfound, Option.map_some']
      have hfound₂ : acc.find? (fun o => o.collection == rc.collection) = some old :=
        hfound
      have holdc : (old.collection == rc.collection) = true :=
        @List.find?_some _ (fun o => o.collection == rc.collection) old acc hfound₂
      rw [if_pos holdc]
      rfl
    · rw [if_neg hc]
      cases hlc : lookupColl c acc with
      | none => rfl
      | some o =>
        rw [Option.map_some']
        have hlc₂ : acc.find? (fun o => o.collection == c) = some o := hlc
        have hoc : (o.collection == c) = true :=
          @List.find?_some _ (fun o => o.collection == c) o acc hlc₂
        have hne : (o.collection == rc.collection) = false := by
          rw [beq_eq_false_iff_ne]
          intro heq
          exact hc (heq ▸ beq_iff_eq.mp hoc)
        rw [if_neg (by simp [hne])]

/-- Folding one optional accumulator entry with one incoming
`RelevantCollection`: the first arrival is stored, later ones are merged. -/
def combineOpt (acc : Option RelevantCollection) (rc : RelevantCollection) :
    Option RelevantCollection :=
  some (acc.elim rc (fun old => combineRelevant old rc))

theorem lookupColl_fold (arrivals : List RelevantCollection) (c : String)
    (acc : List RelevantCollection) :
    lookupColl c (arrivals.foldl mergeRelevantStep acc) =
      (arrivals.filter (fun r => r.collection == c)).foldl combineOpt
        (lookupColl c acc) := by
  induction arrivals generalizing acc with
  | nil => rfl
  | cons r rs ih =>
    rw [List.foldl_cons, ih]
    by_cases h : (r.collection == c) = true
    · rw [@List.filter_cons_of_pos _ (fun o => o.collection == c) r rs h,
        List.foldl_cons, lookupColl_step, if_pos (beq_iff_eq.mp h)]
      rfl
    · rw [@List.filter_cons_of_neg _ (fun o => o.collection == c) r rs h,
        lookupColl_step, if_neg (fun heq => h (beq_iff_eq.mpr heq))]

theorem foldl_combineOpt_some (l : List RelevantCollection) :
    ∀ a : RelevantCollection,
      l.foldl combineOpt (some a) = some (l.foldl combineRelevant a) := by
  induction l with
  | nil => intro a; rfl
  | cons x xs ih => intro a; rw [List.foldl_cons, List.foldl_cons]; exact ih _

theorem foldl_combineRelevant_summary (rs : List RelevantCollection) :
    ∀ (c : String) (m S C : ℚ), 0 < C → (∀ r ∈ rs, 0 < r.count) →
      rs.foldl combineRelevant ⟨c, m, S / C, C⟩ =
        ⟨c, rs.foldl (fun x r => min x r.min_distance) m,
          (S + (rs.map (fun r => r.avg_distance * r.count)).sum) /
            (C + (rs.map (fun r => r.count)).sum),
          C + (rs.map (fun r => r.count)).sum⟩ := by
  induction rs with
  | nil => intro c m S C _ _; simp
  | cons r rs ih =>
    intro c m S C hC hpos
    have hr : 0 < r.count := hpos r (by simp)
    have hcomb : combineRelevant ⟨c, m, S / C, C⟩ r =
        ⟨c, min m r.min_distance, (S + r.avg_distance * r.count) / (C + r.count),
          C + r.count⟩ := by
      simp [combineRelevant, div_mul_cancel₀ S (ne_of_gt hC)]
    rw [List.foldl_cons, hcomb,
      ih c (min m r.min_distance) (S + r.avg_distance * r.count) (C + r.count)
        (by positivity) (fun r₂ hr₂ => hpos r₂ (List.mem_cons_of_mem _ hr₂))]
    simp only [List.foldl_cons, List.map_cons, List.sum_cons, add_assoc]

/-- C9: in `most_relevant_sources`, whenever several query ids return the
same collection, the merged dict entry for that collection is exactly the
count-weighted combination of all its arrivals: `avg_distance` is
`Σ (avgᵢ·countᵢ) / Σ countᵢ` (each pairwise merge computes
`(a.avg·a.count + b.avg·b.count)/(a.count + b.count)` on the running
entry), `count` is the sum of the members' counts, and `min_distance` is
the fold of `min` over the members' `min_distance` — for any number of
query ids and any arrival order (the sums and the minimum are symmetric
in the arrivals, so every arrival order yields these same values). -/
theorem c9_weighted_merge (arrivals : List RelevantCollection) (c : String)
    (r0 : RelevantCollection) (rs : List RelevantCollection)
    (hpos : ∀ r ∈ arrivals, (r.collection == c) = true → 0 < r.count)
    (hfilter : arrivals.filter (fun r => r.collection == c) = r0 :: rs) :
    lookupColl c (mergeRelevantArrivals arrivals) =
      some ⟨r0.collection,
        rs.foldl (fun x r => min x r.min_distance) r0.min_distance,
        ((r0 :: rs).map (fun r => r.avg_distance * r.count)).sum /
          ((r0 :: rs).map (fun r => r.count)).sum,
        ((r0 :: rs).map (fun r => r.count)).sum⟩ := by
  have hposf : ∀ r ∈ r0 :: rs, 0 < r.count := by
    intro r hr
    rw [← hfilter] at hr
    have hm := List.mem_filter.mp hr
    exact hpos r hm.1 hm.2
  have hr0 : 0 < r0.count := hposf r0 (by simp)
  have hrs : ∀ r ∈ rs, 0 < r.count := fun r hr => hposf r (by simp [hr])
  unfold mergeRelevantArrivals
  rw [lookupColl_fold, hfilter]
  rw [List.foldl_cons, show combineOpt (lookupColl c []) r0 = some r0 from rfl,
    foldl_combineOpt_some]
  have hsum := foldl_combineRelevant_summary rs r0.collection r0.min_distance
    (r0.avg_distance * r0.count) r0.count hr0 hrs
  rw [mul_div_cancel_right₀ _ (ne_of_gt hr0)] at hsum
  have heta : (⟨r0.collection, r0.min_distance, r0.avg_distance, r0.count⟩ :
      RelevantCollection) = r0 := rfl
  rw [heta] at hsum
  rw [hsum, List.map_cons, List.sum_cons, List.map_cons, List.sum_cons]

/-- C9 witness: the theorem applied at three concrete arrivals, two of
them for collection `"a"`: counts 1 and 3, averages 2 and 4, minima 1 and
3 merge to count 4, average `(2·1 + 4·3)/4 = 7/2`, minimum 1. -/
theorem c9_witness :
    lookupColl "a" (mergeRelevantArrivals
        [⟨"a", 1, 2, 1⟩, ⟨"b", 9, 9, 1⟩, ⟨"a", 3, 4, 3⟩]) =
      some ⟨"a", 1, 7 / 2, 4⟩ := by
  have h := c9_weighted_merge [⟨"a", 1, 2, 1⟩, ⟨"b", 9, 9, 1⟩, ⟨"a", 3, 4, 3⟩] "a"
    ⟨"a", 1, 2, 1⟩ [⟨"a", 3, 4, 3⟩] (by decide) (by decide)
  rw [h]
  norm_num [List.foldl_cons, List.foldl_nil, List.map_cons, List.map_nil,
    List.sum_cons, List.sum_nil, min_def]

/-! ### Lemmas on the Python string primitives -/

theorem pyStrip_length_le (s : List Char) : (pyStrip s).length ≤ s.length := by
  unfold pyStrip
  calc ((s.dropWhile pyIsSpace).reverse.dropWhile pyIsSpace).reverse.length
      = ((s.dropWhile pyIsSpace).reverse.dropWhile pyIsSpace).length := by
        rw [List.length_reverse]
    _ ≤ (s.dropWhile pyIsSpace).reverse.length :=
        (List.dropWhile_sublist pyIsSpace).length_le
    _ = (s.dropWhile pyIsSpace).length := by rw [List.length_reverse]
    _ ≤ s.length := (List.dropWhile_sublist pyIsSpace).length_le

theorem pyStrip_decomp (s : List Char) : ∃ u v, s = u ++ pyStrip s ++ v := by
  refine ⟨s.takeWhile pyIsSpace,
    ((s.dropWhile pyIsSpace).reverse.takeWhile pyIsSpace).reverse, ?_⟩
  unfold pyStrip
  conv_lhs => rw [← List.takeWhile_append_dropWhile pyIsSpace s]
  rw [List.append_assoc]
  congr 1
  conv_lhs => rw [← List.reverse_reverse (s.dropWhile pyIsSpace),
    ← List.takeWhile_append_dropWhile pyIsSpace (s.dropWhile pyIsSpace).reverse]
  rw [List.reverse_append]

theorem dropWhile_eq_nil_iff_all (p : Char → Bool) (s : List Char) :
    s.dropWhile p = [] ↔ ∀ c ∈ s, p c = true := by
  induction s with
  | nil => simp
  | cons c cs ih =>
    rw [List.dropWhile_cons]
    by_cases h : p c = true
    · simp [h, ih]
    · simp [h]

theorem pyStrip_eq_nil_iff (s : List Char) :
    pyStrip s = [] ↔ ∀ c ∈ s, pyIsSpace c = true := by
  unfold pyStrip
  rw [List.reverse_eq_nil_iff, dropWhile_eq_nil_iff_all]
  constructor
  · intro h c hc
    rcases List.mem_append.mp
        ((List.takeWhile_append_dropWhile pyIsSpace s) ▸ hc) with h₂ | h₂
    · exact List.mem_takeWhile_imp h₂
    · exact h c (by simpa using h₂)
  · intro h c hc
    have : c ∈ s := (List.dropWhile_sublist pyIsSpace).subset (by simpa using hc)
    exact h c this

theorem dropWhile_idem (p : Char → Bool) (s : List Char) :
    (s.dropWhile p).dropWhile p = s.dropWhile p := by
  induction s with
  | nil => rfl
  | cons c cs ih =>
    rw [List.dropWhile_cons]
    by_cases h : p c = true
    · simpa [h] using ih
    · simp [List.dropWhile_cons, h]

theorem dropWhile_eq_self_of_head (p : Char → Bool) (s : List Char)
    (h : ∀ c, s.head? = some c → p c = false) : s.dropWhile p = s := by
  cases s with
  | nil => rfl
  | cons c cs =>
    have := h c rfl
    simp [List.dropWhile_cons, this]

theorem head?_dropWhile_false (p : Char → Bool) (s : List Char) (c : Char)
    (h : (s.dropWhile p).head? = some c) : p c = false := by
  induction s with
  | nil => simp at h
  | cons d ds ih =>
    rw [List.dropWhile_cons] at h
    by_cases hd : p d = true
    · rw [if_pos hd] at h
      exact ih h
    · rw [if_neg hd] at h
      simp at h
      rw [← h]
      cases hpd : p d with
      | false => rfl
      | true => exact absurd hpd hd

theorem pyStrip_idem (s : List Char) : pyStrip (pyStrip s) = pyStrip s := by
  set u := s.dropWhile pyIsSpace with hu
  have hstep : ∀ c, (pyStrip s).head? = some c → pyIsSpace c = false := by
    intro c hc
    have hpre : ∃ w, pyStrip s ++ w = u := by
      refine ⟨(u.reverse.takeWhile pyIsSpace).reverse, ?_⟩
      unfold pyStrip
      rw [← hu, ← List.reverse_append, List.takeWhile_append_dropWhile,
        List.reverse_reverse]
    obtain ⟨w, hw⟩ := hpre
    have huc : u.head? = some c := by
      rw [← hw]
      cases hps : pyStrip s with
      | nil => rw [hps] at hc; simp at hc
      | cons x xs =>
        rw [hps] at hc
        simp at hc ⊢
        exact hc
    apply head?_dropWhile_false pyIsSpace s
    rw [hu] at huc
    exact huc
  show ((List.dropWhile pyIsSpace (pyStrip s)).reverse.dropWhile pyIsSpace).reverse =
    pyStrip s
  rw [dropWhile_eq_self_of_head pyIsSpace (pyStrip s) hstep]
  have hrev : (pyStrip s).reverse = (s.dropWhile pyIsSpace).reverse.dropWhile pyIsSpace := by
    unfold pyStrip
    rw [List.reverse_reverse]
  rw [hrev, dropWhile_idem]
  rfl

theorem pyRstripNewlines_decomp (s : List Char) :
    ∃ t, s = pyRstripNewlines s ++ t ∧
      ∀ c ∈ t, (c = '\n' || c = '\r') = true := by
  refine ⟨(s.reverse.takeWhile (fun c => c = '\n' || c = '\r')).reverse, ?_, ?_⟩
  · unfold pyRstripNewlines
    rw [← List.reverse_append, List.takeWhile_append_dropWhile, List.reverse_reverse]
  · intro c hc
    have hc₂ : c ∈ s.reverse.takeWhile (fun c => c = '\n' || c = '\r') := by
      simpa using hc
    exact @List.mem_takeWhile_imp _ (fun c => decide (c = '\n') || decide (c = '\r'))
      s.reverse c hc₂

theorem pyStrip_pyRstripNewlines_ne_nil (s : List Char)
    (h : (pyStrip s).isEmpty = false) :
    (pyStrip (pyRstripNewlines s)).isEmpty = false := by
  rw [List.isEmpty_eq_false] at h ⊢
  intro habs
  apply h
  rw [pyStrip_eq_nil_iff] at habs ⊢
  intro c hc
  obtain ⟨t, hdecomp, htail⟩ := pyRstripNewlines_decomp s
  rcases List.mem_append.mp (hdecomp ▸ hc) with h₂ | h₂
  · exact habs c h₂
  · have := htail c h₂
    rcases Bool.or_eq_true _ _ |>.mp this with h₃ | h₃
    · rw [decide_eq_true_iff] at h₃
      simp [pyIsSpace, h₃]
    · rw [decide_eq_true_iff] at h₃
      simp [pyIsSpace, h₃]

/-! ### Lemmas on `pyRfindSpace` and the break-point choice -/

theorem getLast?_le_of_pairwise_lt (l : List ℕ) (m : ℕ) (hl : l.Pairwise (· < ·))
    (hm : l.getLast? = some m) : ∀ x ∈ l, x ≤ m := by
  induction l with
  | nil => intro x hx; cases hx
  | cons a as ih =>
    intro x hx
    cases as with
    | nil =>
      simp at hm hx
      omega
    | cons b bs =>
      rw [List.getLast?_cons_cons] at hm
      rcases List.mem_cons.mp hx with rfl | hx₂
      · have hmem : m ∈ b :: bs := List.mem_of_mem_getLast? hm
        exact le_of_lt ((List.pairwise_cons.mp hl).1 m hmem)
      · exact ih (List.pairwise_cons.mp hl).2 hm x hx₂

theorem pyRfindSpace_mem_iff (s : List Char) (a b i : ℕ) :
    i ∈ (List.range (min b s.length)).filter (fun j => a ≤ j && s.get? j == some ' ') ↔
      a ≤ i ∧ i < min b s.length ∧ s.get? i = some ' ' := by
  rw [List.mem_filter, List.mem_range]
  constructor
  · rintro ⟨h1, h2⟩
    have h3 := (Bool.and_eq_true _ _).mp h2
    refine ⟨by simpa using h3.1, h1, by simpa using h3.2⟩
  · rintro ⟨h1, h2, h3⟩
    refine ⟨h2, ?_⟩
    have h3₂ : s[i]? = some ' ' := by rw [← List.get?_eq_getElem?]; exact h3
    simp [h1, h3₂]

theorem pyRfindSpace_spec_some (s : List Char) (a b i : ℕ)
    (h : pyRfindSpace s a b = some i) :
    a ≤ i ∧ i < min b s.length ∧ s.get? i = some ' ' ∧
      ∀ j, a ≤ j → j < min b s.length → s.get? j = some ' ' → j ≤ i := by
  unfold pyRfindSpace at h
  have hmem := List.mem_of_mem_getLast? h
  have hspec := (pyRfindSpace_mem_iff s a b i).mp hmem
  refine ⟨hspec.1, hspec.2.1, hspec.2.2, ?_⟩
  intro j hj1 hj2 hj3
  have hjmem := (pyRfindSpace_mem_iff s a b j).mpr ⟨hj1, hj2, hj3⟩
  have hpw : ((List.range (min b s.length)).filter
      (fun j => a ≤ j && s.get? j == some ' ')).Pairwise (· < ·) :=
    List.Pairwise.filter _ (List.pairwise_lt_range _)
  exact getLast?_le_of_pairwise_lt _ i hpw h j hjmem

theorem pyRfindSpace_spec_none (s : List Char) (a b : ℕ)
    (h : pyRfindSpace s a b = none) :
    ∀ j, a ≤ j → j < min b s.length → (s.get? j == some ' ') = false := by
  intro j hj1 hj2
  unfold pyRfindSpace at h
  rw [List.getLast?_eq_none_iff] at h
  cases hj3 : (s.get? j == some ' ') with
  | false => rfl
  | true =>
    have hmem := (pyRfindSpace_mem_iff s a b j).mpr ⟨hj1, hj2, by simpa using hj3⟩
    rw [h] at hmem
    cases hmem

theorem chunkEndChoice_bounds (limit : ℕ) (s : List Char) (pos : ℕ)
    (hpos : pos ≤ s.length) :
    pos ≤ chunkEndChoice limit s pos ∧ chunkEndChoice limit s pos ≤ s.length ∧
      chunkEndChoice limit s pos ≤ pos + limit := by
  simp only [chunkEndChoice]
  split
  · split
    · split
      · next hce ls heq hlt =>
        have hspec := pyRfindSpace_spec_some s pos (min (pos + limit) s.length) ls heq
        have h1 := hspec.2.1
        omega
      · omega
    · omega
  · omega

/-! ### The chunk-splitting loop -/

theorem sliceL_length_le (s : List Char) (p e : ℕ) :
    (sliceL s p e).length ≤ e - p := by
  unfold sliceL
  rw [List.length_take]
  omega

theorem chunkLoop_mem (limit : ℕ) (s : List Char) (base : ℕ) :
    ∀ (fuel pos : ℕ) (c : TextChunkL), c ∈ chunkLoop limit s base pos fuel →
      ∃ p e, p ≤ e ∧ e ≤ s.length ∧ e ≤ p + limit ∧
        c = ⟨base + p, base + e, pyStrip (sliceL s p e)⟩ ∧
        (pyStrip (sliceL s p e)).isEmpty = false := by
  intro fuel
  induction fuel with
  | zero => intro pos c hc; cases hc
  | succ fuel ih =>
    intro pos c hc
    rw [chunkLoop] at hc
    by_cases hpos : pos < s.length
    · rw [if_pos hpos] at hc
      simp only at hc
      by_cases htxt : pyStrip (sliceL s pos (chunkEndChoice limit s pos)) = []
      · rw [if_pos htxt] at hc
        exact ih _ c hc
      · rw [if_neg htxt] at hc
        rcases List.mem_cons.mp hc with rfl | hc₂
        · have hb := chunkEndChoice_bounds limit s pos (le_of_lt hpos)
          exact ⟨pos, chunkEndChoice limit s pos, hb.1, hb.2.1, hb.2.2, rfl,
            List.isEmpty_eq_false.mpr htxt⟩
        · exact ih _ c hc₂
    · rw [if_neg hpos] at hc
      cases hc

theorem splitTextChunk_mem (limit : ℕ) (tc : TextChunkL) (c : TextChunkL)
    (hc : c ∈ splitTextChunk limit tc) :
    (tc.text.length ≤ limit ∧ c = tc) ∨
      ∃ p e, p ≤ e ∧ e ≤ tc.text.length ∧ e ≤ p + limit ∧
        c = ⟨tc.start_index + p, tc.start_index + e, pyStrip (sliceL tc.text p e)⟩ ∧
        (pyStrip (sliceL tc.text p e)).isEmpty = false := by
  unfold splitTextChunk at hc
  split at hc
  · next h => exact .inl ⟨h, by simpa using hc⟩
  · next h => exact .inr (chunkLoop_mem limit tc.text tc.start_index _ 0 c hc)

theorem cutLineIntoChunks_mem (limit : ℕ) (line : List Char) (base : ℕ)
    (c : TextChunkL) (hc : c ∈ cutLineIntoChunks limit line base) :
    c.text.length ≤ limit ∧ c.text.isEmpty = false ∧ pyStrip c.text = c.text := by
  unfold cutLineIntoChunks at hc
  split at hc
  · cases hc
  · split at hc
    · simp only at hc
      split at hc
      · cases hc
      · next hsan =>
        have hcc : c = ⟨base, base + line.length, pyStrip line⟩ := by simpa using hc
        subst hcc
        refine ⟨le_trans (pyStrip_length_le line) (by omega), ?_, pyStrip_idem line⟩
        exact List.isEmpty_eq_false.mpr hsan
    · obtain ⟨p, e, h1, h2, h3, h4, h5⟩ := chunkLoop_mem limit line base _ 0 c hc
      subst h4
      refine ⟨?_, h5, pyStrip_idem _⟩
      calc (pyStrip (sliceL line p e)).length ≤ (sliceL line p e).length :=
            pyStrip_length_le _
        _ ≤ e - p := sliceL_length_le line p e
        _ ≤ limit := by omega

/-! ### `read_iter` positional lemmas -/

theorem splitLinesKeepEnds_flatten (t : List Char) :
    (splitLinesKeepEnds t).flatten = t := by
  induction t with
  | nil => rfl
  | cons c rest ih =>
    rw [splitLinesKeepEnds]
    cases h : splitLinesKeepEnds rest with
    | nil =>
      rw [h] at ih
      simp at ih
      simp [← ih]
    | cons l ls =>
      rw [h] at ih
      by_cases hc : c = '\n'
      · simp [hc, ih]
      · simp only [if_neg hc]
        simp [← ih]

theorem sliceL_all (s : List Char) : sliceL s 0 s.length = s := by
  unfold sliceL
  rw [List.drop_zero, Nat.sub_zero, List.take_length]

theorem sliceL_embed (pre lineText tail : List Char) (p e : ℕ)
    (hpe : p ≤ e) (he : e ≤ lineText.length) :
    sliceL (pre ++ (lineText ++ tail)) (pre.length + p) (pre.length + e) =
      sliceL lineText p e := by
  unfold sliceL
  have h1 : pre.length + p - pre.length = p := by omega
  have h2 : pre.length + e - (pre.length + p) = e - p := by omega
  rw [List.drop_append_eq_append_drop, List.drop_eq_nil_of_le (by omega), h1,
    List.nil_append, h2]
  rw [List.drop_append_eq_append_drop]
  have h3 : p - lineText.length = 0 := by omega
  rw [h3, List.drop_zero, List.take_append_eq_append_take]
  have h4 : e - p - (lineText.drop p).length = 0 := by
    rw [List.length_drop]
    omega
  rw [h4, List.take_zero, List.append_nil]

theorem readIterGo_mem (limit : ℕ) :
    ∀ (lines : List (List Char)) (ci : ℕ) (pre fileText : List Char),
      pre.length = ci → fileText = pre ++ lines.flatten →
      ∀ c ∈ readIterGo limit ci lines,
        (∃ u v, sliceL fileText c.start_index c.end_index =
            u ++ pyStrip c.text ++ v) ∧
        (c.text = sliceL fileText c.start_index c.end_index ∨
          c.text = pyStrip (sliceL fileText c.start_index c.end_index)) ∧
        c.text.length ≤ limit ∧ (pyStrip c.text).isEmpty = false := by
  intro lines
  induction lines with
  | nil => intro ci pre fileText _ _ c hc; cases hc
  | cons line rest ih =>
    intro ci pre fileText hlen hfile c hc
    rw [readIterGo] at hc
    rcases List.mem_append.mp hc with hc₂ | hc₂
    · -- a chunk of the current line
      split at hc₂
      · cases hc₂
      · next hguard =>
        set lineText := pyRstripNewlines line with hlt
        obtain ⟨ltail, hdecomp, _⟩ := pyRstripNewlines_decomp line
        have hfile₂ : fileText = pre ++ (lineText ++ (ltail ++ rest.flatten)) := by
          rw [hfile, List.flatten_cons]
          conv_lhs => rw [hdecomp]
          simp [List.append_assoc]
        rcases splitTextChunk_mem limit ⟨ci, ci + lineText.length, lineText⟩ c hc₂ with
          ⟨hfit, rfl⟩ | ⟨p, e, h1, h2, h3, rfl, h5⟩
        · -- unsplit line: the chunk is the whole (rstripped) line
          have hslice : sliceL fileText ci (ci + lineText.length) = lineText := by
            rw [hfile₂]
            have := sliceL_embed pre lineText (ltail ++ rest.flatten) 0 lineText.length
              (by omega) (le_refl _)
            rw [hlen] at this
            simpa [sliceL_all] using this
          refine ⟨?_, ?_, ?_, ?_⟩
          · obtain ⟨u, v, huv⟩ := pyStrip_decomp lineText
            exact ⟨u, v, by rw [hslice]; exact huv⟩
          · exact .inl hslice.symm
          · simpa using hfit
          · have : (pyStrip line).isEmpty = false := by
              rw [List.isEmpty_eq_false]
              exact hguard
            simpa using pyStrip_pyRstripNewlines_ne_nil line this
        · -- split chunk: indices point into the line at offset ci
          have hslice : sliceL fileText (ci + p) (ci + e) = sliceL lineText p e := by
            have := sliceL_embed pre lineText (ltail ++ rest.flatten) p e h1 h2
            rw [hlen] at this
            rw [hfile₂]
            exact this
          refine ⟨?_, ?_, ?_, ?_⟩
          · obtain ⟨u, v, huv⟩ := pyStrip_decomp (sliceL lineText p e)
            refine ⟨u, v, ?_⟩
            rw [hslice, pyStrip_idem]
            exact huv
          · exact .inr (by rw [hslice])
          · calc (pyStrip (sliceL lineText p e)).length
                ≤ (sliceL lineText p e).length := pyStrip_length_le _
              _ ≤ e - p := sliceL_length_le lineText p e
              _ ≤ limit := by omega
          · rw [pyStrip_idem]
            exact h5
    · -- a chunk of a later line
      refine ih (ci + line.length) (pre ++ line) fileText ?_ ?_ c hc₂
      · rw [List.length_append, hlen]
      · rw [hfile, List.flatten_cons, List.append_assoc]

theorem readIter_mem (limit : ℕ) (fileText : List Char) (c : TextChunkL)
    (hc : c ∈ readIter limit fileText) :
    (∃ u v, sliceL fileText c.start_index c.end_index = u ++ pyStrip c.text ++ v) ∧
      (c.text = sliceL fileText c.start_index c.end_index ∨
        c.text = pyStrip (sliceL fileText c.start_index c.end_index)) ∧
      c.text.length ≤ limit ∧ (pyStrip c.text).isEmpty = false :=
  readIterGo_mem limit (splitLinesKeepEnds fileText) 0 [] fileText rfl
    (by rw [splitLinesKeepEnds_flatten]; rfl) c hc

/-- C7 counterexample: the splitting loops break at the last SPACE
(`rfind(" ", ...)`), not at the last whitespace.  The line `"ab\tcdef"`
with limit 4 opens the window `[0, 4)` whose last whitespace is the tab at
index 2 (index 3 holds the non-whitespace `'c'`), strictly after the
window's start 0; the claim therefore demands the first chunk to end at
index 2, but the produced first chunk is `(0, 4, "ab\tc")` — `2 < 4`, so
the chosen break point is not the last whitespace. -/
theorem c7_counterexample :
    cutLineIntoChunks 4 "ab\tcdef".data 0 =
        [⟨0, 4, "ab\tc".data⟩, ⟨4, 7, "def".data⟩] ∧
      pyIsSpace '\t' = true ∧ "ab\tcdef".data.get? 2 = some '\t' ∧
      "ab\tcdef".data.get? 3 = some 'c' ∧ pyIsSpace 'c' = false ∧
      (2 : ℕ) < 4 := by
  decide

/-- C7 (amended): every chunk produced by the query-line chunker
`_cut_line_into_chunks` satisfies `len(text) ≤ limit`, is non-empty and is
its own strip (never whitespace-only); every chunk produced by the text
Reader's `read_iter` satisfies `len(text) ≤ chunk_size_max` and has a
non-empty strip; and when a line longer than the limit is split, the
break point chosen is the last SPACE character (`" "`, via
`str.rfind(" ", ...)`) inside the current window whenever one exists
strictly after the window's start — not the last arbitrary whitespace. -/
theorem c7_chunker_contract :
    (∀ (limit : ℕ) (line : List Char) (base : ℕ),
        ∀ c ∈ cutLineIntoChunks limit line base,
          c.text.length ≤ limit ∧ c.text.isEmpty = false ∧ pyStrip c.text = c.text) ∧
      (∀ (limit : ℕ) (fileText : List Char), ∀ c ∈ readIter limit fileText,
          c.text.length ≤ limit ∧ (pyStrip c.text).isEmpty = false) ∧
      ∀ (limit : ℕ) (s : List Char) (pos i : ℕ),
        min (pos + limit) s.length < s.length →
        pos < i → i < min (pos + limit) s.length → s.get? i = some ' ' →
        pos < chunkEndChoice limit s pos ∧
          chunkEndChoice limit s pos < min (pos + limit) s.length ∧
          s.get? (chunkEndChoice limit s pos) = some ' ' ∧
          ∀ j, chunkEndChoice limit s pos < j → j < min (pos + limit) s.length →
            (s.get? j == some ' ') = false := by
  refine ⟨?_, ?_, ?_⟩
  · intro limit line base c hc
    have h := cutLineIntoChunks_mem limit line base c hc
    exact ⟨h.1, h.2.1, h.2.2⟩
  · intro limit fileText c hc
    have h := readIter_mem limit fileText c hc
    exact ⟨h.2.2.1, h.2.2.2⟩
  · intro limit s pos i hce hpi hiw hsp
    simp only [chunkEndChoice]
    rw [if_pos hce]
    cases heq : pyRfindSpace s pos (min (pos + limit) s.length) with
    | none =>
      have hcontra := pyRfindSpace_spec_none s pos (min (pos + limit) s.length) heq i
        (le_of_lt hpi) (by omega)
      rw [hsp] at hcontra
      simp at hcontra
    | some ls =>
      have hspec := pyRfindSpace_spec_some s pos (min (pos + limit) s.length) ls heq
      have hmax := hspec.2.2.2 i (le_of_lt hpi) (by omega) hsp
      have hlt : pos < ls := lt_of_lt_of_le hpi hmax
      simp only [if_pos hlt]
      have hub := hspec.2.1
      refine ⟨hlt, by omega, hspec.2.2.1, ?_⟩
      intro j hj1 hj2
      cases hj3 : (s.get? j == some ' ') with
      | false => rfl
      | true =>
        have hj4 : s.get? j = some ' ' := by simpa using hj3
        have := hspec.2.2.2 j (by omega) (by omega) hj4
        omega

/-- C7 witness: the amended theorem applied at concrete inputs — a short
line that fits, a one-line file, and the window of `"x y z"` with limit 4
whose last space is at index 3. -/
theorem c7_witness :
    ("hi there".data.length ≤ 10 ∧ "hi there".data.isEmpty = false ∧
        pyStrip "hi there".data = "hi there".data) ∧
      ("ab cd".data.length ≤ 5 ∧ (pyStrip "ab cd".data).isEmpty = false) ∧
      (0 < chunkEndChoice 4 "x y z".data 0 ∧
        chunkEndChoice 4 "x y z".data 0 < min (0 + 4) "x y z".data.length ∧
        "x y z".data.get? (chunkEndChoice 4 "x y z".data 0) = some ' ' ∧
        ∀ j, chunkEndChoice 4 "x y z".data 0 < j →
          j < min (0 + 4) "x y z".data.length →
          ("x y z".data.get? j == some ' ') = false) :=
  ⟨c7_chunker_contract.1 10 "hi there".data 0 ⟨0, 8, "hi there".data⟩ (by decide),
   c7_chunker_contract.2.1 5 "ab cd".data ⟨0, 5, "ab cd".data⟩ (by decide),
   c7_chunker_contract.2.2 4 "x y z".data 0 1 (by decide) (by decide) (by decide)
     (by decide)⟩

/-- C8 counterexample: exact recovery fails for the plain-text reader.
For the file `" aab"` with `chunk_size_max = 2`, `read_iter` yields the
chunk `(0, 2, "a")` but the canonical text's slice `[0:2]` is `" a"`,
which differs from the chunk's text (the split loop strips the window, so
the slice only CONTAINS the stripped text). -/
theorem c8_counterexample :
    readIter 2 " aab".data = [⟨0, 2, "a".data⟩, ⟨2, 4, "ab".data⟩] ∧
      sliceL " aab".data 0 2 = " a".data ∧
      ("a".data == " a".data) = false := by
  decide

/-- C8 (amended): for every chunk produced by the plain-text Reader,
`canonical_text[chunk.start_index : chunk.end_index]` CONTAINS
`chunk.text` stripped of surrounding whitespace (as a contiguous
substring), and recovery is exact only up to whitespace: the chunk's text
is either the whole slice (a line that fit unsplit) or the slice stripped
of surrounding whitespace (a split chunk). -/
theorem c8_slice_contains_stripped (limit : ℕ) (fileText : List Char)
    (c : TextChunkL) (hc : c ∈ readIter limit fileText) :
    (∃ u v, sliceL fileText c.start_index c.end_index = u ++ pyStrip c.text ++ v) ∧
      (c.text = sliceL fileText c.start_index c.end_index ∨
        c.text = pyStrip (sliceL fileText c.start_index c.end_index)) :=
  ⟨(readIter_mem limit fileText c hc).1, (readIter_mem limit fileText c hc).2.1⟩

/-- C8 witness: the amended theorem applied to the first chunk the text
reader produces on a concrete two-line file. -/
theorem c8_witness :
    (∃ u v, sliceL "alpha beta gamma\ndelta epsilon zeta".data 0 16 =
        u ++ pyStrip "alpha beta gamma".data ++ v) ∧
      ("alpha beta gamma".data =
          sliceL "alpha beta gamma\ndelta epsilon zeta".data 0 16 ∨
        "alpha beta gamma".data =
          pyStrip (sliceL "alpha beta gamma\ndelta epsilon zeta".data 0 16)) :=
  c8_slice_contains_stripped 1500 "alpha beta gamma\ndelta epsilon zeta".data
    ⟨0, 16, "alpha beta gamma".data⟩ (by decide)

end McpBrag
